import Mathlib

/-!
Verification of `loralib/utils.py`: a shallow embedding of the two utility
functions `mark_only_lora_as_trainable` (trainability selector) and
`lora_state_dict` (snapshot filter), together with theorems settling the
specification claims about them.
-/

namespace LoRA

/-- Does the pattern list occur at the head of the second list?
Embeds Python's `str.startswith` at the character-list level. -/
def isHeadOf : List Char → List Char → Bool
  | [], _ => true
  | _ :: _, [] => false
  | c :: cs, d :: ds => c == d && isHeadOf cs ds

/-- Does the pattern occur anywhere in the list?  Embeds Python's
`sub in s` substring test at the character-list level. -/
def hasSubList (sub : List Char) : List Char → Bool
  | [] => isHeadOf sub []
  | c :: t => isHeadOf sub (c :: t) || hasSubList sub t

/-- The characters strictly before the first occurrence of `sub`; the whole
list when `sub` does not occur.  Embeds Python's `s.split(sub)[0]`. -/
def beforeFirstOcc (sub : List Char) : List Char → List Char
  | [] => []
  | c :: t => if isHeadOf sub (c :: t) then [] else c :: beforeFirstOcc sub t

/-- Python's `sub in s` substring test, on `String`. -/
def containsSubstring (s sub : String) : Bool :=
  hasSubList sub.data s.data

/-- The derived bias key of `lora_state_dict`'s `lora_only` branch:
`k.split('lora_')[0] + 'bias'`. -/
def biasNameOf (k : String) : String :=
  String.mk (beforeFirstOcc "lora_".data k.data ++ "bias".data)

/-- The single error kind raised by both functions on an invalid flag:
Python's `NotImplementedError`. -/
inductive PyError where
  | notImplementedError
deriving DecidableEq

/-- A persisted snapshot (`state_dict`): an insertion-ordered mapping from
fully-qualified parameter name to a tensor value, modelled as an
association list. -/
abbrev Snapshot (α : Type) := List (String × α)

/-- The keys of a snapshot, in order. -/
def keysOf {α : Type} (s : Snapshot α) : List String :=
  s.map Prod.fst

/-- A well-formed snapshot (a Python dict) has no duplicate keys. -/
def NodupKeys {α : Type} (s : Snapshot α) : Prop :=
  (keysOf s).Nodup

instance {α : Type} (s : Snapshot α) : Decidable (NodupKeys s) := by
  unfold NodupKeys; infer_instance

/-- Dict lookup: the value at the first entry with the given key.
Embeds `my_state_dict[k]` / `k in my_state_dict`. -/
def findVal {α : Type} : Snapshot α → String → Option α
  | [], _ => none
  | (k, v) :: t, key => if k = key then some v else findVal t key

/-- Dict assignment `d[k] = v`: overwrite the first entry with key `k` in
place, or append a new entry at the end. -/
def dinsert {α : Type} : Snapshot α → String → α → Snapshot α
  | [], k, v => [(k, v)]
  | (k', v') :: t, k, v =>
    if k' = k then (k, v) :: t else (k', v') :: dinsert t k v

/-- The accumulation loop of `lora_state_dict`'s `lora_only` branch: walk
the entries of the full snapshot; for every key containing `"lora_"` insert
it, then insert the derived bias key when it is present in the full
snapshot. -/
def loraOnlyCollect {α : Type} (full : Snapshot α) :
    Snapshot α → Snapshot α → Snapshot α
  | [], acc => acc
  | (k, v) :: rest, acc =>
    if containsSubstring k "lora_" then
      let acc1 := dinsert acc k v
      let acc2 :=
        match findVal full (biasNameOf k) with
        | some bv => dinsert acc1 (biasNameOf k) bv
        | none => acc1
      loraOnlyCollect full rest acc2
    else
      loraOnlyCollect full rest acc

/-- Embedding of `lora_state_dict(model, bias)`; the snapshot argument
stands for `model.state_dict()`. -/
def lora_state_dict {α : Type} (s : Snapshot α) (bias : String) :
    Except PyError (Snapshot α) :=
  if bias = "none" then
    Except.ok (s.filter fun p => containsSubstring p.1 "lora_")
  else if bias = "all" then
    Except.ok (s.filter fun p =>
      containsSubstring p.1 "lora_" || containsSubstring p.1 "bias")
  else if bias = "lora_only" then
    Except.ok (loraOnlyCollect s s [])
  else
    Except.error PyError.notImplementedError

/-- The `bias` attribute of a submodule: absent (`hasattr` false), present
but `None`, or a parameter identified by its fully-qualified name. -/
inductive BiasAttr where
  | absent
  | noneBias
  | param (name : String)
deriving DecidableEq

/-- A submodule of the graph: a capability tag and an optional bias field.
Modelled from the spec: the `isinstance(m, LoRALayer)` check (the
`LoRALayer` class lives in `loralib/layers.py`, not part of this fragment)
is represented by an explicit Boolean capability tag, as §9 of the spec
directs. -/
structure Submodule where
  isLoRALayer : Bool
  bias : BiasAttr
deriving DecidableEq

/-- A module graph: its named parameters, each carrying the mutable
`requires_grad` flag, and its submodules. -/
structure Model where
  params : List (String × Bool)
  modules : List Submodule
deriving DecidableEq

/-- Step 1 of `mark_only_lora_as_trainable`: every parameter whose name
does not contain `"lora_"` gets `requires_grad = False`. -/
def disableNonLora (ps : List (String × Bool)) : List (String × Bool) :=
  ps.map fun p => if containsSubstring p.1 "lora_" then p else (p.1, false)

/-- The `all` branch: every parameter whose name contains `"bias"` gets
`requires_grad = True`. -/
def enableBias (ps : List (String × Bool)) : List (String × Bool) :=
  ps.map fun p => if containsSubstring p.1 "bias" then (p.1, true) else p

/-- The names of bias parameters of adaptation-capable submodules with a
non-absent bias: exactly those whose `requires_grad` the `lora_only`
branch sets to `True`. -/
def loraBiasNames (ms : List Submodule) : List String :=
  ms.filterMap fun m =>
    match m.bias with
    | BiasAttr.param n => if m.isLoRALayer then some n else none
    | _ => none

/-- The `lora_only` branch: set `requires_grad = True` on the bias
parameter of every adaptation-capable submodule with a non-absent bias
(parameter objects are identified by their fully-qualified name). -/
def enableLoraBias (ms : List Submodule) (ps : List (String × Bool)) :
    List (String × Bool) :=
  ps.map fun p => if (loraBiasNames ms).contains p.1 then (p.1, true) else p

/-- Embedding of `mark_only_lora_as_trainable(model, bias)`.  The Python
function mutates the graph in place and may raise; the embedding returns
the mutated graph together with the outcome, so that the state left behind
by a raising call is observable. -/
def mark_only_lora_as_trainable (m : Model) (bias : String) :
    Model × Except PyError Unit :=
  let m1 : Model := { m with params := disableNonLora m.params }
  if bias = "none" then
    (m1, Except.ok ())
  else if bias = "all" then
    ({ m1 with params := enableBias m1.params }, Except.ok ())
  else if bias = "lora_only" then
    ({ m1 with params := enableLoraBias m1.modules m1.params }, Except.ok ())
  else
    (m1, Except.error PyError.notImplementedError)

/-- The key set the claim describes for `lora_state_dict(s, 'lora_only')`
(written from the spec's words, to be compared with the code-derived
`loraOnlyCollect`), relative to the part `done` of the snapshot already
processed: keys of `done` containing `"lora_"`, plus every derived bias
key of such a key that is present in `s`.  The claimed result is obtained
at `done = s`. -/
def loraOnlyHasKey {α : Type} (s : Snapshot α) (done : Snapshot α)
    (key : String) : Bool :=
  (done.any fun q => q.1 == key && containsSubstring key "lora_")
  || done.any fun q =>
      containsSubstring q.1 "lora_" && biasNameOf q.1 == key
        && (findVal s key).isSome

end LoRA

deriving instance DecidableEq for Except

namespace LoRA

/-- C4: after `set_trainability(g, 'none')`, every parameter whose name
does not contain `"lora_"` has trainable = false, and every parameter
whose name contains `"lora_"` keeps the flag it had before the call
(stated per position in the parameter list). -/
theorem mark_none_char (g : Model) (i : Nat) (p : String × Bool)
    (h : g.params[i]? = some p) :
    (mark_only_lora_as_trainable g "none").1.params[i]? =
      some (p.1, if containsSubstring p.1 "lora_" then p.2 else false) := by
  have hres : (mark_only_lora_as_trainable g "none").1.params
      = g.params.map (fun q => if containsSubstring q.1 "lora_" then q
          else (q.1, false)) := rfl
  rw [hres, List.getElem?_map, h]
  by_cases hc : containsSubstring p.1 "lora_" <;> simp [hc]

/-- C4 witness: a concrete graph with a non-`lora_` parameter that was
trainable before the call. -/
theorem mark_none_char_witness :
    (Model.mk [("layer.weight", true)] []).params[0]?
        = some ("layer.weight", true) ∧
    (mark_only_lora_as_trainable (Model.mk [("layer.weight", true)] [])
        "none").1.params[0]? =
      some (("layer.weight", true).1,
        if containsSubstring ("layer.weight", true).1 "lora_"
        then (("layer.weight", true) : String × Bool).2 else false) :=
  ⟨by decide,
   mark_none_char (Model.mk [("layer.weight", true)] []) 0
     ("layer.weight", true) (by decide)⟩

/-- C5: after `set_trainability(g, 'all')`, every parameter whose name
contains `"bias"` has trainable = true, regardless of its prior flag. -/
theorem mark_all_bias_true (g : Model) (i : Nat) (p : String × Bool)
    (h : g.params[i]? = some p)
    (hb : containsSubstring p.1 "bias" = true) :
    (mark_only_lora_as_trainable g "all").1.params[i]? =
      some (p.1, true) := by
  have hres : (mark_only_lora_as_trainable g "all").1.params
      = (g.params.map (fun q => if containsSubstring q.1 "lora_" then q
          else (q.1, false))).map
        (fun q => if containsSubstring q.1 "bias" then (q.1, true)
          else q) := rfl
  rw [hres, List.getElem?_map, List.getElem?_map, h]
  by_cases hl : containsSubstring p.1 "lora_" <;> simp [hl, hb]

/-- C5 witness: a concrete graph with a bias parameter frozen beforehand. -/
theorem mark_all_bias_true_witness :
    (Model.mk [("layer.bias", false)] []).params[0]?
        = some ("layer.bias", false) ∧
    containsSubstring ("layer.bias" : String) "bias" = true ∧
    (mark_only_lora_as_trainable (Model.mk [("layer.bias", false)] [])
        "all").1.params[0]? = some ("layer.bias", true) :=
  ⟨by decide, by decide,
   mark_all_bias_true (Model.mk [("layer.bias", false)] []) 0
     ("layer.bias", false) (by decide) (by decide)⟩

/-- C3: every flag other than `none`, `all` and `lora_only` makes both
operations fail with `NotImplementedError`, on every graph and snapshot. -/
theorem invalid_flag_errors {α : Type} (g : Model) (s : Snapshot α)
    (f : String) (h1 : f ≠ "none") (h2 : f ≠ "all")
    (h3 : f ≠ "lora_only") :
    (mark_only_lora_as_trainable g f).2
        = Except.error PyError.notImplementedError ∧
    lora_state_dict s f = Except.error PyError.notImplementedError := by
  constructor
  · simp [mark_only_lora_as_trainable, h1, h2, h3]
  · simp [lora_state_dict, h1, h2, h3]

/-- C3 witness: the flag `"lora"` on a concrete graph and snapshot. -/
theorem invalid_flag_errors_witness :
    (("lora" : String) ≠ "none" ∧ ("lora" : String) ≠ "all"
      ∧ ("lora" : String) ≠ "lora_only") ∧
    (mark_only_lora_as_trainable (Model.mk [("w", true)] []) "lora").2
        = Except.error PyError.notImplementedError ∧
    lora_state_dict ([("w", 1)] : Snapshot Nat) "lora"
        = Except.error PyError.notImplementedError :=
  ⟨⟨by decide, by decide, by decide⟩,
   invalid_flag_errors (Model.mk [("w", true)] []) ([("w", 1)] : Snapshot Nat)
     "lora" (by decide) (by decide) (by decide)⟩

/-- C10: an unrecognized flag makes `mark_only_lora_as_trainable` raise,
but only after the base-disabling pass has completed: the state left
behind has every non-`lora_` parameter frozen and every `lora_` parameter
untouched. -/
theorem invalid_flag_partial_mutation (g : Model) (f : String)
    (h1 : f ≠ "none") (h2 : f ≠ "all") (h3 : f ≠ "lora_only") :
    (mark_only_lora_as_trainable g f).2
        = Except.error PyError.notImplementedError ∧
    ∀ (i : Nat) (p : String × Bool), g.params[i]? = some p →
      (mark_only_lora_as_trainable g f).1.params[i]? =
        some (p.1, if containsSubstring p.1 "lora_" then p.2 else false) := by
  have hres : (mark_only_lora_as_trainable g f).1.params
      = g.params.map (fun q => if containsSubstring q.1 "lora_" then q
          else (q.1, false)) := by
    simp [mark_only_lora_as_trainable, h1, h2, h3, disableNonLora]
  constructor
  · simp [mark_only_lora_as_trainable, h1, h2, h3]
  · intro i p h
    rw [hres, List.getElem?_map, h]
    by_cases hc : containsSubstring p.1 "lora_" <;> simp [hc]

/-- C10 witness: the flag `"lora"` on a concrete two-parameter graph;
the raising call leaves the non-`lora_` parameter frozen. -/
theorem invalid_flag_partial_mutation_witness :
    (("lora" : String) ≠ "none" ∧ ("lora" : String) ≠ "all"
      ∧ ("lora" : String) ≠ "lora_only") ∧
    (mark_only_lora_as_trainable
        (Model.mk [("layer.weight", true), ("layer.lora_A", true)] [])
        "lora").2 = Except.error PyError.notImplementedError ∧
    ∀ (i : Nat) (p : String × Bool),
      (Model.mk [("layer.weight", true), ("layer.lora_A", true)]
        []).params[i]? = some p →
      (mark_only_lora_as_trainable
          (Model.mk [("layer.weight", true), ("layer.lora_A", true)] [])
          "lora").1.params[i]? =
        some (p.1, if containsSubstring p.1 "lora_" then p.2 else false) :=
  ⟨⟨by decide, by decide, by decide⟩,
   invalid_flag_partial_mutation
     (Model.mk [("layer.weight", true), ("layer.lora_A", true)] []) "lora"
     (by decide) (by decide) (by decide)⟩

/-- C6: `lora_state_dict(s, 'none')` keeps exactly the entries of `s`
whose key contains `"lora_"`, values taken from `s`. -/
theorem lora_state_dict_none_char {α : Type} (s : Snapshot α) :
    ∃ r, lora_state_dict s "none" = Except.ok r ∧
      (∀ k v, ((k, v) ∈ r ↔
        (k, v) ∈ s ∧ containsSubstring k "lora_" = true)) ∧
      keysOf r = (keysOf s).filter fun k => containsSubstring k "lora_" := by
  refine ⟨_, rfl, ?_, ?_⟩
  · intro k v
    simp [lora_state_dict, List.mem_filter]
  · show keysOf (s.filter fun p => containsSubstring p.1 "lora_") = _
    rw [keysOf, keysOf, List.filter_map]
    rfl

/-- C7: `lora_state_dict(s, 'all')` keeps exactly the entries of `s`
whose key contains `"lora_"` or `"bias"`, values taken from `s`. -/
theorem lora_state_dict_all_char {α : Type} (s : Snapshot α) :
    ∃ r, lora_state_dict s "all" = Except.ok r ∧
      (∀ k v, ((k, v) ∈ r ↔ (k, v) ∈ s ∧
        (containsSubstring k "lora_" = true
          ∨ containsSubstring k "bias" = true))) ∧
      keysOf r = (keysOf s).filter fun k =>
        containsSubstring k "lora_" || containsSubstring k "bias" := by
  refine ⟨_, rfl, ?_, ?_⟩
  · intro k v
    simp [lora_state_dict, List.mem_filter]
  · show keysOf (s.filter fun p =>
      containsSubstring p.1 "lora_" || containsSubstring p.1 "bias") = _
    rw [keysOf, keysOf, List.filter_map]
    rfl

end LoRA

namespace LoRA

theorem disableNonLora_idem (ps : List (String × Bool)) :
    disableNonLora (disableNonLora ps) = disableNonLora ps := by
  unfold disableNonLora
  rw [List.map_map]
  apply List.map_congr_left
  intro p _
  by_cases hc : containsSubstring p.1 "lora_" <;> simp [Function.comp, hc]

theorem all_branch_idem (ps : List (String × Bool)) :
    enableBias (disableNonLora (enableBias (disableNonLora ps)))
      = enableBias (disableNonLora ps) := by
  unfold enableBias disableNonLora
  rw [List.map_map, List.map_map, List.map_map, List.map_map]
  apply List.map_congr_left
  intro p _
  by_cases hb : containsSubstring p.1 "bias" <;>
    by_cases hl : containsSubstring p.1 "lora_" <;>
    simp [Function.comp, hb, hl]

theorem lora_only_branch_idem (ms : List Submodule)
    (ps : List (String × Bool)) :
    enableLoraBias ms (disableNonLora (enableLoraBias ms (disableNonLora ps)))
      = enableLoraBias ms (disableNonLora ps) := by
  unfold enableLoraBias disableNonLora
  rw [List.map_map, List.map_map, List.map_map, List.map_map]
  apply List.map_congr_left
  intro p _
  by_cases hw : p.1 ∈ loraBiasNames ms <;>
    by_cases hl : containsSubstring p.1 "lora_" <;>
    simp [Function.comp, hw, hl]

/-- C9: for each of the three valid flags, running
`mark_only_lora_as_trainable` twice in a row leaves exactly the state a
single run leaves. -/
theorem mark_idempotent (g : Model) (f : String)
    (hf : f = "none" ∨ f = "all" ∨ f = "lora_only") :
    (mark_only_lora_as_trainable
        (mark_only_lora_as_trainable g f).1 f).1
      = (mark_only_lora_as_trainable g f).1 := by
  rcases hf with h | h | h <;> subst h
  · have e1 : (mark_only_lora_as_trainable g "none").1
        = { g with params := disableNonLora g.params } := rfl
    rw [e1]
    have e2 : (mark_only_lora_as_trainable
        { g with params := disableNonLora g.params } "none").1
        = { g with params := disableNonLora (disableNonLora g.params) } :=
      rfl
    rw [e2, disableNonLora_idem]
  · have e1 : (mark_only_lora_as_trainable g "all").1
        = { g with params := enableBias (disableNonLora g.params) } := rfl
    rw [e1]
    have e2 : (mark_only_lora_as_trainable
        { g with params := enableBias (disableNonLora g.params) } "all").1
        = { g with params := enableBias (disableNonLora
            (enableBias (disableNonLora g.params))) } := rfl
    rw [e2, all_branch_idem]
  · have e1 : (mark_only_lora_as_trainable g "lora_only").1
        = { g with params :=
            enableLoraBias g.modules (disableNonLora g.params) } := rfl
    rw [e1]
    have e2 : (mark_only_lora_as_trainable
        { g with params :=
            enableLoraBias g.modules (disableNonLora g.params) }
        "lora_only").1
        = { g with params := enableLoraBias g.modules (disableNonLora
            (enableLoraBias g.modules (disableNonLora g.params))) } := rfl
    rw [e2, lora_only_branch_idem]

/-- C9 witness: the flag `"all"` on a concrete graph. -/
theorem mark_idempotent_witness :
    (("all" : String) = "none" ∨ ("all" : String) = "all"
      ∨ ("all" : String) = "lora_only") ∧
    (mark_only_lora_as_trainable
        (mark_only_lora_as_trainable
          (Model.mk [("layer.bias", false), ("layer.lora_A", true)] [])
          "all").1 "all").1
      = (mark_only_lora_as_trainable
          (Model.mk [("layer.bias", false), ("layer.lora_A", true)] [])
          "all").1 :=
  ⟨Or.inr (Or.inl rfl),
   mark_idempotent
     (Model.mk [("layer.bias", false), ("layer.lora_A", true)] []) "all"
     (Or.inr (Or.inl rfl))⟩

/-- C2 counterexample: on the graph with the single parameter
`("lora_A", trainable)` and no submodules, `set_trainability(g,
'lora_only')` leaves `lora_A` trainable although it is not the bias of any
adaptation-capable submodule, so it is false that exactly those biases are
trainable. -/
theorem mark_lora_only_claim_false :
    ¬ (∀ p ∈ (mark_only_lora_as_trainable
          (Model.mk [("lora_A", true)] []) "lora_only").1.params,
        (p.2 = true ↔
          p.1 ∈ loraBiasNames (Model.mk [("lora_A", true)] []).modules)) := by
  decide

/-- C2 amended: after `set_trainability(g, 'lora_only')`, every parameter
is trainable exactly when it is the bias of an adaptation-capable
submodule with a non-absent bias, or its name contains `"lora_"` and its
flag was true before the call (stated per position in the parameter
list). -/
theorem mark_lora_only_char (g : Model) (i : Nat) (p : String × Bool)
    (h : g.params[i]? = some p) :
    (mark_only_lora_as_trainable g "lora_only").1.params[i]? =
      some (p.1,
        if (loraBiasNames g.modules).contains p.1 then true
        else if containsSubstring p.1 "lora_" then p.2 else false) := by
  have hres : (mark_only_lora_as_trainable g "lora_only").1.params
      = (g.params.map (fun q => if containsSubstring q.1 "lora_" then q
          else (q.1, false))).map
        (fun q => if (loraBiasNames g.modules).contains q.1
          then (q.1, true) else q) := rfl
  rw [hres, List.getElem?_map, List.getElem?_map, h]
  by_cases hw : p.1 ∈ loraBiasNames g.modules <;>
    by_cases hl : containsSubstring p.1 "lora_" <;> simp [hw, hl]

/-- C2 amended witness: a graph with a LoRA submodule whose bias
`"m.bias"` was frozen, plus a trainable `lora_A` parameter. -/
theorem mark_lora_only_char_witness :
    (Model.mk [("m.bias", false), ("lora_A", true)]
        [Submodule.mk true (BiasAttr.param "m.bias")]).params[0]?
      = some ("m.bias", false) ∧
    (mark_only_lora_as_trainable
        (Model.mk [("m.bias", false), ("lora_A", true)]
          [Submodule.mk true (BiasAttr.param "m.bias")])
        "lora_only").1.params[0]? =
      some (("m.bias" : String),
        if (loraBiasNames (Model.mk [("m.bias", false), ("lora_A", true)]
            [Submodule.mk true (BiasAttr.param "m.bias")]).modules).contains
            ("m.bias" : String) then true
        else if containsSubstring ("m.bias" : String) "lora_"
        then false else false) :=
  ⟨by decide,
   mark_lora_only_char
     (Model.mk [("m.bias", false), ("lora_A", true)]
       [Submodule.mk true (BiasAttr.param "m.bias")]) 0
     ("m.bias", false) (by decide)⟩

end LoRA


namespace LoRA

theorem keysOf_nil {α : Type} : keysOf ([] : Snapshot α) = [] := rfl

theorem keysOf_cons {α : Type} (a : String × α) (t : Snapshot α) :
    keysOf (a :: t) = a.1 :: keysOf t := rfl

theorem nodupKeys_cons {α : Type} (k : String) (v : α) (t : Snapshot α) :
    NodupKeys ((k, v) :: t) ↔ k ∉ keysOf t ∧ NodupKeys t := by
  unfold NodupKeys
  rw [keysOf_cons, List.nodup_cons]

theorem findVal_dinsert {α : Type} (k : String) (v : α) :
    ∀ (acc : Snapshot α) (key : String),
      findVal (dinsert acc k v) key =
        if key = k then some v else findVal acc key := by
  intro acc
  induction acc with
  | nil =>
    intro key
    by_cases h : key = k
    · subst h; simp [dinsert, findVal]
    · simp [dinsert, findVal, h, Ne.symm h]
  | cons a t ih =>
    obtain ⟨k', v'⟩ := a
    intro key
    by_cases h1 : k' = k
    · subst h1
      by_cases h2 : key = k'
      · subst h2; simp [dinsert, findVal]
      · simp [dinsert, findVal, h2, Ne.symm h2]
    · by_cases h2 : k' = key
      · subst h2
        simp [dinsert, findVal, h1]
      · simp [dinsert, findVal, h1, h2, ih]

theorem keysOf_dinsert {α : Type} (k : String) (v : α) :
    ∀ acc : Snapshot α,
      keysOf (dinsert acc k v) =
        if k ∈ keysOf acc then keysOf acc else keysOf acc ++ [k] := by
  intro acc
  induction acc with
  | nil => simp [dinsert, keysOf_nil, keysOf_cons]
  | cons a t ih =>
    obtain ⟨k', v'⟩ := a
    by_cases h1 : k' = k
    · subst h1
      simp [dinsert, keysOf_cons]
    · rw [show dinsert ((k', v') :: t) k v = (k', v') :: dinsert t k v by
        simp [dinsert, h1]]
      rw [keysOf_cons, keysOf_cons, ih]
      by_cases h2 : k ∈ keysOf t
      · simp [h2, fun hh : k = k' => h1 hh.symm]
      · simp only [h2, List.mem_cons, or_false]
        rw [if_neg (fun hh : k = k' => h1 hh.symm)]
        simp

theorem nodupKeys_dinsert {α : Type} (acc : Snapshot α) (k : String)
    (v : α) (h : NodupKeys acc) : NodupKeys (dinsert acc k v) := by
  unfold NodupKeys
  rw [keysOf_dinsert]
  by_cases h2 : k ∈ keysOf acc
  · simpa [h2] using h
  · rw [if_neg h2]
    simp [List.nodup_append, h2]
    exact h

theorem mem_keys_dinsert {α : Type} (acc : Snapshot α) (k : String)
    (v : α) (key : String) (h : key ∈ keysOf (dinsert acc k v)) :
    key = k ∨ key ∈ keysOf acc := by
  rw [keysOf_dinsert] at h
  by_cases h2 : k ∈ keysOf acc
  · rw [if_pos h2] at h; exact Or.inr h
  · rw [if_neg h2] at h
    rcases List.mem_append.mp h with h3 | h3
    · exact Or.inr h3
    · exact Or.inl (by simpa using h3)

theorem findVal_some_mem_keys {α : Type} (k : String) (v : α) :
    ∀ s : Snapshot α, findVal s k = some v → k ∈ keysOf s := by
  intro s
  induction s with
  | nil => intro h; simp [findVal] at h
  | cons a t ih =>
    obtain ⟨k', v'⟩ := a
    intro h
    rw [keysOf_cons]
    by_cases h1 : k' = k
    · subst h1; exact List.mem_cons_self _ _
    · exact List.mem_cons_of_mem _ (ih (by simpa [findVal, h1] using h))

theorem findVal_eq_of_nodup {α : Type} (k : String) (v : α) :
    ∀ s : Snapshot α, NodupKeys s → (k, v) ∈ s → findVal s k = some v := by
  intro s
  induction s with
  | nil => intro _ h; simp at h
  | cons a t ih =>
    obtain ⟨k', v'⟩ := a
    intro hs hmem
    have hparts := (nodupKeys_cons k' v' t).mp hs
    rcases List.mem_cons.mp hmem with h1 | h1
    · injection h1 with e1 e2
      subst e1; subst e2
      simp [findVal]
    · by_cases h2 : k' = k
      · subst h2
        exact absurd (List.mem_map_of_mem Prod.fst h1) hparts.1
      · simpa [findVal, h2] using ih hparts.2 h1

theorem collect_keys_sub {α : Type} (full : Snapshot α) :
    ∀ (rest acc : Snapshot α) (key : String),
      key ∈ keysOf (loraOnlyCollect full rest acc) →
      key ∈ keysOf acc ∨ key ∈ keysOf rest ∨ key ∈ keysOf full := by
  intro rest
  induction rest with
  | nil =>
    intro acc key h
    exact Or.inl (by simpa [loraOnlyCollect] using h)
  | cons a rest ih =>
    obtain ⟨k, v⟩ := a
    intro acc key h
    by_cases hA : containsSubstring k "lora_"
    · cases hfb : findVal full (biasNameOf k) with
      | some bv =>
        rw [show loraOnlyCollect full ((k, v) :: rest) acc
            = loraOnlyCollect full rest
                (dinsert (dinsert acc k v) (biasNameOf k) bv) by
          simp [loraOnlyCollect, hA, hfb]] at h
        rcases ih _ key h with h1 | h1 | h1
        · rcases mem_keys_dinsert _ _ _ _ h1 with h2 | h2
          · exact Or.inr (Or.inr (by
              rw [h2]; exact findVal_some_mem_keys _ _ full hfb))
          · rcases mem_keys_dinsert _ _ _ _ h2 with h3 | h3
            · exact Or.inr (Or.inl (by
                rw [keysOf_cons, h3]; exact List.mem_cons_self _ _))
            · exact Or.inl h3
        · exact Or.inr (Or.inl (by
            rw [keysOf_cons]; exact List.mem_cons_of_mem _ h1))
        · exact Or.inr (Or.inr h1)
      | none =>
        rw [show loraOnlyCollect full ((k, v) :: rest) acc
            = loraOnlyCollect full rest (dinsert acc k v) by
          simp [loraOnlyCollect, hA, hfb]] at h
        rcases ih _ key h with h1 | h1 | h1
        · rcases mem_keys_dinsert _ _ _ _ h1 with h2 | h2
          · exact Or.inr (Or.inl (by
              rw [keysOf_cons, h2]; exact List.mem_cons_self _ _))
          · exact Or.inl h2
        · exact Or.inr (Or.inl (by
            rw [keysOf_cons]; exact List.mem_cons_of_mem _ h1))
        · exact Or.inr (Or.inr h1)
    · rw [show loraOnlyCollect full ((k, v) :: rest) acc
          = loraOnlyCollect full rest acc by
        simp [loraOnlyCollect, hA]] at h
      rcases ih _ key h with h1 | h1 | h1
      · exact Or.inl h1
      · exact Or.inr (Or.inl (by
          rw [keysOf_cons]; exact List.mem_cons_of_mem _ h1))
      · exact Or.inr (Or.inr h1)

theorem collect_nodup {α : Type} (full : Snapshot α) :
    ∀ (rest acc : Snapshot α), NodupKeys acc →
      NodupKeys (loraOnlyCollect full rest acc) := by
  intro rest
  induction rest with
  | nil => intro acc h; simpa [loraOnlyCollect] using h
  | cons a rest ih =>
    obtain ⟨k, v⟩ := a
    intro acc h
    by_cases hA : containsSubstring k "lora_"
    · cases hfb : findVal full (biasNameOf k) with
      | some bv =>
        rw [show loraOnlyCollect full ((k, v) :: rest) acc
            = loraOnlyCollect full rest
                (dinsert (dinsert acc k v) (biasNameOf k) bv) by
          simp [loraOnlyCollect, hA, hfb]]
        exact ih _ (nodupKeys_dinsert _ _ _ (nodupKeys_dinsert _ _ _ h))
      | none =>
        rw [show loraOnlyCollect full ((k, v) :: rest) acc
            = loraOnlyCollect full rest (dinsert acc k v) by
          simp [loraOnlyCollect, hA, hfb]]
        exact ih _ (nodupKeys_dinsert _ _ _ h)
    · rw [show loraOnlyCollect full ((k, v) :: rest) acc
          = loraOnlyCollect full rest acc by
        simp [loraOnlyCollect, hA]]
      exact ih _ h

/-- C8: for every well-formed snapshot and every valid flag,
`lora_state_dict` succeeds, returns only keys present in the input
snapshot, and returns no key twice. -/
theorem lora_state_dict_wf {α : Type} (s : Snapshot α) (f : String)
    (hs : NodupKeys s) (hf : f = "none" ∨ f = "all" ∨ f = "lora_only") :
    ∃ r, lora_state_dict s f = Except.ok r ∧
      (∀ k, k ∈ keysOf r → k ∈ keysOf s) ∧ NodupKeys r := by
  rcases hf with h | h | h <;> subst h
  · refine ⟨_, rfl, ?_, ?_⟩
    · intro k hk
      exact ((List.filter_sublist s).map Prod.fst).subset hk
    · exact List.Nodup.sublist ((List.filter_sublist s).map Prod.fst) hs
  · refine ⟨_, rfl, ?_, ?_⟩
    · intro k hk
      exact ((List.filter_sublist s).map Prod.fst).subset hk
    · exact List.Nodup.sublist ((List.filter_sublist s).map Prod.fst) hs
  · refine ⟨_, rfl, ?_, ?_⟩
    · intro k hk
      rcases collect_keys_sub s s [] k hk with h1 | h1 | h1
      · simp [keysOf_nil] at h1
      · exact h1
      · exact h1
    · exact collect_nodup s s [] (by simp [NodupKeys, keysOf_nil])

/-- C8 witness: a concrete snapshot with the flag `"lora_only"`. -/
theorem lora_state_dict_wf_witness :
    NodupKeys ([("layer.lora_A", 1), ("layer.bias", 2)] : Snapshot Nat) ∧
    (("lora_only" : String) = "none" ∨ ("lora_only" : String) = "all"
      ∨ ("lora_only" : String) = "lora_only") ∧
    ∃ r, lora_state_dict
        ([("layer.lora_A", 1), ("layer.bias", 2)] : Snapshot Nat)
        "lora_only" = Except.ok r ∧
      (∀ k, k ∈ keysOf r →
        k ∈ keysOf ([("layer.lora_A", 1), ("layer.bias", 2)] :
          Snapshot Nat)) ∧ NodupKeys r :=
  ⟨by decide, Or.inr (Or.inr rfl),
   lora_state_dict_wf ([("layer.lora_A", 1), ("layer.bias", 2)] :
     Snapshot Nat) "lora_only" (by decide) (Or.inr (Or.inr rfl))⟩

end LoRA

namespace LoRA

theorem collect_findVal {α : Type} (s : Snapshot α) (hs : NodupKeys s) :
    ∀ (rest dn acc : Snapshot α),
      dn ++ rest = s →
      (∀ key, findVal acc key =
        if loraOnlyHasKey s dn key then findVal s key else none) →
      ∀ key, findVal (loraOnlyCollect s rest acc) key =
        if loraOnlyHasKey s s key then findVal s key else none := by
  intro rest
  induction rest with
  | nil =>
    intro dn acc hsplit hinv key
    have hdn : dn = s := by simpa using hsplit
    subst hdn
    simpa [loraOnlyCollect] using hinv key
  | cons a rest ih =>
    obtain ⟨k, v⟩ := a
    intro dn acc hsplit hinv key
    have hsplit' : (dn ++ [(k, v)]) ++ rest = s := by simpa using hsplit
    have hkmem : (k, v) ∈ s := by rw [← hsplit]; simp
    have hvk : findVal s k = some v := findVal_eq_of_nodup k v s hs hkmem
    by_cases hA : containsSubstring k "lora_"
    · cases hfb : findVal s (biasNameOf k) with
      | some bv =>
        rw [show loraOnlyCollect s ((k, v) :: rest) acc
            = loraOnlyCollect s rest
                (dinsert (dinsert acc k v) (biasNameOf k) bv) by
          simp [loraOnlyCollect, hA, hfb]]
        apply ih (dn ++ [(k, v)]) _ hsplit' _ key
        intro key2
        rw [findVal_dinsert, findVal_dinsert]
        by_cases e1 : key2 = biasNameOf k
        · subst e1
          simp [loraOnlyHasKey, List.any_append, hA, hfb]
        · by_cases e2 : key2 = k
          · subst e2
            rw [if_neg e1]
            simp [loraOnlyHasKey, List.any_append, hA, hvk]
          · rw [if_neg e1, if_neg e2, hinv key2]
            have hx1 : (k == key2) = false :=
              beq_eq_false_iff_ne.mpr fun hh => e2 hh.symm
            have hx2 : (biasNameOf k == key2) = false :=
              beq_eq_false_iff_ne.mpr fun hh => e1 hh.symm
            have hcond : loraOnlyHasKey s (dn ++ [(k, v)]) key2
                = loraOnlyHasKey s dn key2 := by
              simp [loraOnlyHasKey, List.any_append, hx1, hx2]
            rw [hcond]
      | none =>
        rw [show loraOnlyCollect s ((k, v) :: rest) acc
            = loraOnlyCollect s rest (dinsert acc k v) by
          simp [loraOnlyCollect, hA, hfb]]
        apply ih (dn ++ [(k, v)]) _ hsplit' _ key
        intro key2
        rw [findVal_dinsert]
        by_cases e2 : key2 = k
        · subst e2
          simp [loraOnlyHasKey, List.any_append, hA, hvk]
        · rw [if_neg e2, hinv key2]
          have hx1 : (k == key2) = false :=
            beq_eq_false_iff_ne.mpr fun hh => e2 hh.symm
          have hcond : loraOnlyHasKey s (dn ++ [(k, v)]) key2
              = loraOnlyHasKey s dn key2 := by
            by_cases e1 : biasNameOf k = key2
            · have hfb2 : findVal s key2 = none := by
                rw [← e1]; exact hfb
              simp [loraOnlyHasKey, List.any_append, hfb2, hx1]
            · have hx2 : (biasNameOf k == key2) = false :=
                beq_eq_false_iff_ne.mpr e1
              simp [loraOnlyHasKey, List.any_append, hx1, hx2]
          rw [hcond]
    · rw [show loraOnlyCollect s ((k, v) :: rest) acc
          = loraOnlyCollect s rest acc by
        simp [loraOnlyCollect, hA]]
      apply ih (dn ++ [(k, v)]) _ hsplit' _ key
      intro key2
      rw [hinv key2]
      have hcond : loraOnlyHasKey s (dn ++ [(k, v)]) key2
          = loraOnlyHasKey s dn key2 := by
        by_cases e2 : key2 = k
        · subst e2
          simp [loraOnlyHasKey, List.any_append, hA]
        · have hx1 : (k == key2) = false :=
            beq_eq_false_iff_ne.mpr fun hh => e2 hh.symm
          simp [loraOnlyHasKey, List.any_append, hA, hx1]
      rw [hcond]

/-- C1: for a well-formed snapshot `s`, `lora_state_dict(s, 'lora_only')`
returns exactly the entries of `s` whose key contains `"lora_"`, plus, for
each such key, the entry of `s` at the derived bias key (prefix before the
first `"lora_"` plus the literal `"bias"`) whenever that derived key is
present in `s`, with the derived entry's value taken from `s`; every other
lookup in the result misses. -/
theorem lora_state_dict_lora_only_char {α : Type} (s : Snapshot α)
    (hs : NodupKeys s) (key : String) :
    ∃ r, lora_state_dict s "lora_only" = Except.ok r ∧
      findVal r key =
        if loraOnlyHasKey s s key then findVal s key else none := by
  refine ⟨_, rfl, ?_⟩
  exact collect_findVal s hs s [] [] rfl
    (fun key2 => by simp [findVal, loraOnlyHasKey]) key

/-- C1 witness: the spec's own example snapshot; the derived key
`"layer.bias"` is included with its snapshot value. -/
theorem lora_state_dict_lora_only_char_witness :
    NodupKeys ([("layer.lora_A", 1), ("layer.bias", 2)] : Snapshot Nat) ∧
    ∃ r, lora_state_dict
        ([("layer.lora_A", 1), ("layer.bias", 2)] : Snapshot Nat)
        "lora_only" = Except.ok r ∧
      findVal r "layer.bias" =
        if loraOnlyHasKey
            ([("layer.lora_A", 1), ("layer.bias", 2)] : Snapshot Nat)
            ([("layer.lora_A", 1), ("layer.bias", 2)] : Snapshot Nat)
            "layer.bias"
        then findVal
            ([("layer.lora_A", 1), ("layer.bias", 2)] : Snapshot Nat)
            "layer.bias"
        else none :=
  ⟨by decide,
   lora_state_dict_lora_only_char
     ([("layer.lora_A", 1), ("layer.bias", 2)] : Snapshot Nat)
     (by decide) "layer.bias"⟩

end LoRA
